import Mathlib

/-!
Verification of the raildock document-processing pipeline.

Strings are modelled as `List Char`.  Python regular-expression passes are
modelled as deterministic scanners: `re.sub` is a left-to-right scan that,
at each position, either rewrites a match (continuing after it) or copies
one character.  The Python character classes are modelled as follows, which
is faithful on the data domain of this code base (ASCII plus Hangul):
`\s` = ASCII whitespace, `\d` = ASCII digits, `[가-힣]` = Hangul syllables,
`\w` = ASCII alphanumerics, underscore, or Hangul syllables.
-/

abbrev Str := List Char

namespace RD

/-- Model of Python `\s` (restricted to its ASCII members). -/
def pySpace (c : Char) : Bool :=
  c = ' ' || c = '\t' || c = '\n' || c = '\r' || c = '\x0b' || c = '\x0c'

/-- Model of Python `\d`. -/
def pyDigit (c : Char) : Bool := c.isDigit

/-- The character class `[가-힣]` (Hangul syllables). -/
def hangul (c : Char) : Bool :=
  0xAC00 ≤ c.val.toNat && c.val.toNat ≤ 0xD7A3

/-- Model of Python `\w` on this code base's data domain. -/
def pyWord (c : Char) : Bool := c.isAlphanum || c = '_' || hangul c

/-- The class `[\w-]` used by the regulation-marker pattern. -/
def pyWordDash (c : Char) : Bool := pyWord c || c = '-'

/-- `startsWithL pat s` : `pat` is a leading segment of `s`. -/
def startsWithL : Str → Str → Bool
  | [], _ => true
  | _ :: _, [] => false
  | p :: ps, c :: cs => p = c && startsWithL ps cs

/-- Python `str.strip()`: drop leading and trailing whitespace. -/
def strip (s : Str) : Str :=
  ((s.dropWhile pySpace).reverse.dropWhile pySpace).reverse

/-- Python `str.replace(pat, rep)` (all occurrences), fuelled scan. -/
def replaceAllGo (pat rep : Str) : Nat → Str → Str
  | 0, s => s
  | _ + 1, [] => []
  | fuel + 1, c :: cs =>
    if startsWithL pat (c :: cs) then
      rep ++ replaceAllGo pat rep fuel ((c :: cs).drop pat.length)
    else
      c :: replaceAllGo pat rep fuel cs

def replaceAll (pat rep s : Str) : Str :=
  if pat = [] then s else replaceAllGo pat rep s.length s

def subFuel (m : Str → Option (Str × Str)) : Nat → Str → Str
  | 0, s => s
  | _ + 1, [] => []
  | fuel + 1, c :: cs =>
    match m (c :: cs) with
    | some (rep, rest) =>
      if rest.length < cs.length + 1 then rep ++ subFuel m fuel rest
      else c :: subFuel m fuel cs
    | none => c :: subFuel m fuel cs

def reSub (m : Str → Option (Str × Str)) (s : Str) : Str :=
  subFuel m s.length s

end RD

namespace Chunker

open RD

def markerLit : Str := "[규정 ID]:".toList

/-- Length of a match of `\[규정 ID\]:\s*[\w-]+` at the start of `s`
(greedy; `\s` and `[\w-]` are disjoint, so no backtracking arises). -/
def matchMarkerLen (s : Str) : Option Nat :=
  if startsWithL markerLit s then
    let rest := s.drop markerLit.length
    let wsn := (rest.takeWhile pySpace).length
    let wn := ((rest.drop wsn).takeWhile pyWordDash).length
    if wn = 0 then none else some (markerLit.length + wsn + wn)
  else none

/-- Left-to-right scan for non-overlapping marker matches: returns the
text before the first marker and the list of (marker, following text)
pairs. -/
def scanGo : Nat → Str → Str × List (Str × Str)
  | 0, s => (s, [])
  | _ + 1, [] => ([], [])
  | fuel + 1, c :: cs =>
    match matchMarkerLen (c :: cs) with
    | some k =>
      let res := scanGo fuel ((c :: cs).drop k)
      ([], ((c :: cs).take k, res.1) :: res.2)
    | none =>
      let res := scanGo fuel cs
      (c :: res.1, res.2)

def scanMarkers (s : Str) : Str × List (Str × Str) := scanGo s.length s

/-- The number of occurrences of the unit-marker pattern in `s`. -/
def numMarkers (s : Str) : Nat := (scanMarkers s).2.length

def pairsFlat : List (Str × Str) → List Str
  | [] => []
  | p :: ps => p.1 :: p.2 :: pairsFlat ps

/-- `re.split` with the capturing marker pattern:
`[pre, marker1, text1, marker2, text2, ...]`. -/
def reSplitParts (s : Str) : List Str :=
  (scanMarkers s).1 :: pairsFlat (scanMarkers s).2

structure Reg where
  regulation_id : Str
  content : Str
deriving DecidableEq, Repr

/-- One step of the `while i < len(parts)` pairing loop:
`reg_id_line = parts[i].strip()`, `content = parts[i+1]` (or `""`),
`reg_id = reg_id_line.replace("[규정 ID]:", "").strip()`,
`full_content = (reg_id_line + "\n" + content).strip()`. -/
def mkReg (m content : Str) : Reg :=
  let idLine := strip m
  { regulation_id := strip (replaceAll markerLit [] idLine)
    content := strip (idLine ++ '\n' :: content) }

def chunkLoop : List Str → List Reg
  | [] => []
  | [m] => [mkReg m []]
  | m :: content :: rest => mkReg m content :: chunkLoop rest

structure Chunk where
  regulation_id : Str
  content : Str
  chunk_index : Nat
  total_chunks : Nat
deriving DecidableEq, Repr

/-- Python `s[-n:]` for `n : Nat` (note `s[-0:]` is the whole string). -/
def pyTakeLast (n : Nat) (s : Str) : Str :=
  if n = 0 then s else s.drop (s.length - n)

def ell : Str := "...".toList

def nl2 : Str := ['\n', '\n']

/-- The body of `_apply_overlap`'s loop for the unit at index `idx`,
given the previous unit (if any) and the remaining units (whose head is
the current one). -/
def applyOverlapGo (overlap total : Nat) :
    Option Reg → Nat → List Reg → List Chunk
  | _, _, [] => []
  | prev, idx, r :: rest =>
    let c1 : Str :=
      match prev with
      | none => r.content
      | some p => ell ++ pyTakeLast overlap p.content ++ nl2 ++ r.content
    let c2 : Str :=
      match rest with
      | [] => c1
      | nxt :: _ => c1 ++ nl2 ++ nxt.content.take overlap ++ ell
    { regulation_id := r.regulation_id
      content := c2
      chunk_index := idx
      total_chunks := total } :: applyOverlapGo overlap total (some r) (idx + 1) rest

def applyOverlap (overlap : Nat) (regs : List Reg) : List Chunk :=
  applyOverlapGo overlap regs.length none 0 regs

/-- `RegulationChunker.chunk` with the given `overlap`. -/
def chunk (overlap : Nat) (text : Str) : List Chunk :=
  applyOverlap overlap (chunkLoop (reSplitParts text).tail)

def dReg : Reg := ⟨[], []⟩

def dChunk : Chunk := ⟨[], [], 0, 0⟩

/-- C6 scenario text (the spec's scenario written with the code's actual
marker pattern `[규정 ID]:`). -/
def c7SrcReal : Str := "[규정 ID]: A-1\nfoo bar\n[규정 ID]: A-2\nbaz".toList

/-- The spec's literally-quoted scenario source, whose `[ID]:` lines do
not match the code's marker pattern. -/
def c7SrcLit : Str := "[ID]: A-1\nfoo bar\n[ID]: A-2\nbaz".toList

end Chunker

namespace Pipe

open RD

/-- Python `content.split('\n')`. -/
def splitNl : Str → List Str
  | [] => [[]]
  | c :: cs =>
    if c = '\n' then [] :: splitNl cs
    else
      match splitNl cs with
      | [] => [[c]]
      | l :: ls => (c :: l) :: ls

/-- `'\n'.join(lines)`. -/
def joinNl : List Str → Str
  | [] => []
  | [s] => s
  | s :: rest => s ++ '\n' :: joinNl rest

/-- `re.match(r'^\[(.+?)\]$', line.strip())`: the stripped line must be
`[` + a non-empty newline-free body + `]`; returns the captured body. -/
def headerLabel (line : Str) : Option Str :=
  match strip line with
  | [] => none
  | c :: rest =>
    if c = '[' ∧ 2 ≤ rest.length ∧ rest.getLast? = some ']'
        ∧ ∀ x ∈ rest.dropLast, x ≠ '\n' then
      some rest.dropLast
    else none

def noHeader (l : Str) : Bool := (headerLabel l).isNone

/-- Python dict assignment `d[k] = v`: overwrite in place if present,
else append. -/
def dictSet (d : List (Str × Str)) (k v : Str) : List (Str × Str) :=
  if d.any (fun p => p.1 = k) then
    d.map (fun p => if p.1 = k then (k, v) else p)
  else d ++ [(k, v)]

/-- The loop of `parse_document_sections`, with the running
`current_key`, `current_lines` and `sections` state. -/
def parseDocGo (currentKey : Option Str) (currentLines : List Str) :
    List Str → List (Str × Str) → List (Str × Str)
  | [], sections =>
    match currentKey with
    | none => sections
    | some k => dictSet sections k (strip (joinNl currentLines))
  | line :: rest, sections =>
    match headerLabel line with
    | some label =>
      match currentKey with
      | none => parseDocGo (some label) [] rest sections
      | some k =>
        parseDocGo (some label) [] rest
          (dictSet sections k (strip (joinNl currentLines)))
    | none =>
      match currentKey with
      | none => parseDocGo none currentLines rest sections
      | some k => parseDocGo (some k) (currentLines ++ [line]) rest sections

def parseDocumentSections (content : Str) : List (Str × Str) :=
  parseDocGo none [] (splitNl content) []

/-- Modelled from the claim's wording: drop lines before the first
header; each header yields one group whose value is the stripped
newline-join of the lines up to the next header or end of input. -/
def specGoF : Nat → List Str → List (Str × Str)
  | 0, _ => []
  | _ + 1, [] => []
  | fuel + 1, line :: rest =>
    match headerLabel line with
    | some label =>
      (label, strip (joinNl (rest.takeWhile noHeader)))
        :: specGoF fuel (rest.dropWhile noHeader)
    | none => specGoF fuel rest

def specGroups (lines : List Str) : List (Str × Str) :=
  specGoF lines.length lines

def dictOfGroups (gs : List (Str × Str)) : List (Str × Str) :=
  gs.foldl (fun d g => dictSet d g.1 g.2) []

/-- A discovered archive item (JSON result paired with its folder). -/
structure VItem where
  filename : Str
  folder : Str
deriving DecidableEq, Repr

/-- One row of the orchestrator's `results` collection. -/
structure ItemRes where
  filename : Str
  folder : Str
  document : Str
deriving DecidableEq, Repr

def failDoc (msg : Str) : Str := "처리 실패: ".toList ++ msg

/-- The per-item loop of `process_vision_zip`: run the (external)
generation/review step; on success append a success row, on any raised
error append a failure row carrying the message, and continue. -/
def processItems (step : VItem → Except Str Str) (items : List VItem) :
    List ItemRes :=
  items.foldl
    (fun results item =>
      match step item with
      | Except.ok doc => results ++ [⟨item.filename, item.folder, doc⟩]
      | Except.error e => results ++ [⟨item.filename, item.folder, failDoc e⟩])
    []

def resOfItem (step : VItem → Except Str Str) (item : VItem) : ItemRes :=
  match step item with
  | Except.ok doc => ⟨item.filename, item.folder, doc⟩
  | Except.error e => ⟨item.filename, item.folder, failDoc e⟩

def noResultsMsg : Str := "처리할 Vision 결과가 없습니다.".toList

/-- Outcome of the orchestrator body that runs after the archive has been
extracted: the produced response (or the aborting error) and whether
`zip_processor.cleanup(extract_dir)` was reached. -/
structure ZipRun where
  response : Except Str (List ItemRes)
  cleanupCalled : Bool
deriving Repr

/-- Control flow of `process_vision_zip` after extraction: an empty
vision-result list raises HTTP 400 (propagating past the cleanup call);
otherwise the items are processed (each step wrapped per item), the
cleanup call runs, and the response is returned. -/
def processVisionZipBody (step : VItem → Except Str Str)
    (visionResults : List VItem) : ZipRun :=
  if visionResults = [] then
    { response := Except.error noResultsMsg, cleanupCalled := false }
  else
    { response := Except.ok (processItems step visionResults)
      cleanupCalled := true }

end Pipe

def itemsW : List Pipe.VItem := [⟨"a".toList, []⟩, ⟨"b".toList, []⟩]

def stepW : Pipe.VItem → Except Str Str := fun it =>
  if it.filename = "a".toList then Except.error ("boom".toList)
  else Except.ok ("ok".toList)

def dW : Nat → Str := fun _ => "ok".toList

namespace PDF

open RD

/-- `\s*\n+\s*` (also `\s*\n\s*`) at the start of `s`: the maximal
whitespace run when it contains a newline. -/
def wsNlSplit (s : Str) : Option (Str × Str) :=
  let ws := s.takeWhile pySpace
  if '\n' ∈ ws then some (ws, s.drop ws.length) else none

/-- Matcher combinator for patterns `LEFT \s*\n+\s* RIGHT`: `left`
returns the text kept for the replacement and the number of characters
consumed; `right` consumes from the remainder; `rep` assembles the
replacement. -/
def seqWsNl (left : Str → Option (Str × Nat))
    (right : Str → Option (Str × Str))
    (rep : Str → Str → Str) : Str → Option (Str × Str) :=
  fun s =>
    match left s with
    | none => none
    | some (lt, n) =>
      match wsNlSplit (s.drop n) with
      | none => none
      | some (ws, s2) =>
        match right s2 with
        | none => none
        | some (rt, s3) =>
          let _ := ws
          some (rep lt rt, s3)

def lLit (lit : Str) : Str → Option (Str × Nat) := fun s =>
  if startsWithL lit s then some (lit, lit.length) else none

def lChar (p : Char → Bool) : Str → Option (Str × Nat) := fun s =>
  match s with
  | [] => none
  | c :: _ => if p c then some ([c], 1) else none

/-- `(\d+)\.` -/
def lNumDot : Str → Option (Str × Nat) := fun s =>
  let d1 := s.takeWhile pyDigit
  if d1.isEmpty then none
  else
    match (s.drop d1.length).head? with
    | some c => if c = '.' then some (d1 ++ ['.'], d1.length + 1) else none
    | none => none

/-- `\d+\.?\d*` (greedy). -/
def parseNum : Str → Option (Str × Nat) := fun s =>
  let d1 := s.takeWhile pyDigit
  if d1.isEmpty then none
  else
    match (s.drop d1.length).head? with
    | some c =>
      if c = '.' then
        let d2 := (s.drop (d1.length + 1)).takeWhile pyDigit
        some (d1 ++ '.' :: d2, d1.length + 1 + d2.length)
      else some (d1, d1.length)
    | none => some (d1, d1.length)

/-- `\d+\.?\d*` followed by a literal (`%` or `°C`). -/
def lNumLit (lit : Str) : Str → Option (Str × Nat) := fun s =>
  match parseNum s with
  | none => none
  | some (num, n) =>
    if startsWithL lit (s.drop n) then some (num ++ lit, n + lit.length)
    else none

/-- `(\d+\.?\d*LIT)\s*,` — number-with-literal group, then any
whitespace, then a comma. -/
def lNumLitCommaWs (lit : Str) : Str → Option (Str × Nat) := fun s =>
  match lNumLit lit s with
  | none => none
  | some (g, n) =>
    let wn := ((s.drop n).takeWhile pySpace).length
    match (s.drop (n + wn)).head? with
    | some c => if c = ',' then some (g, n + wn + 1) else none
    | none => none

/-- `([가-힣]),` — Hangul character directly followed by a comma. -/
def lHangulComma : Str → Option (Str × Nat) := fun s =>
  match s with
  | k :: c :: _ => if hangul k && c == ',' then some ([k], 2) else none
  | _ => none

/-- `온도는?` / `습도는?` — the literal with a greedy optional `는`. -/
def lLitOptNeun (lit : Str) : Str → Option (Str × Nat) := fun s =>
  if startsWithL lit s then
    match (s.drop lit.length).head? with
    | some c =>
      if c = '는' then some (lit ++ ['는'], lit.length + 1)
      else some (lit, lit.length)
    | none => some (lit, lit.length)
  else none

def rDigit : Str → Option (Str × Str) := fun s =>
  match s with
  | [] => none
  | c :: cs => if pyDigit c then some ([c], cs) else none

def rDigits : Str → Option (Str × Str) := fun s =>
  let d := s.takeWhile pyDigit
  if d.isEmpty then none else some (d, s.drop d.length)

def rHangul : Str → Option (Str × Str) := fun s =>
  match s with
  | [] => none
  | c :: cs => if hangul c then some ([c], cs) else none

def josaList : List Char := ['은', '는', '이', '가', '을', '를', '의', '에', '와', '과']

def rJosa : Str → Option (Str × Str) := fun s =>
  match s with
  | [] => none
  | c :: cs => if josaList.contains c then some ([c], cs) else none

def rLitCdeg : Str → Option (Str × Str) := fun s =>
  if startsWithL ("°C".toList) s then some ("°C".toList, s.drop 2) else none

/-- Stage 0c: `\n{2,}` → `\n`. -/
def mNlRun (s : Str) : Option (Str × Str) :=
  let r := s.takeWhile (fun c => c == '\n')
  if 2 ≤ r.length then some (['\n'], s.drop r.length) else none

/-- The replacement inside a matched paren span:
`re.sub(r'\s*\n+\s*', ' ', span)`. -/
def mWsNlSpace (s : Str) : Option (Str × Str) :=
  match wsNlSplit s with
  | none => none
  | some (_, rest) => some ([' '], rest)

def fixParenSpan (span : Str) : Str := reSub mWsNlSpace span

/-- Stage 1 matcher: `\([^)]*\n[^)]*\)` — from an opening paren to the
first closing paren after it, provided a newline lies between. -/
def mParen (s : Str) : Option (Str × Str) :=
  match s with
  | [] => none
  | c :: rest =>
    if c = '(' then
      let region := rest.takeWhile (fun x => x != ')')
      match rest.drop region.length with
      | [] => none
      | a :: rest2 =>
        if a = ')' ∧ '\n' ∈ region then
          some (fixParenSpan ('(' :: region ++ [')']), rest2)
        else none
    else none

def stage1Once (s : Str) : Str := reSub mParen s

/-- `for _ in range(10): text = sub(...); break when unchanged`. -/
def stage1Loop : Nat → Str → Str
  | 0, s => s
  | n + 1, s =>
    let t := stage1Once s
    if t = s then s else stage1Loop n t

/-- Stage 2: `(\d+)\.\s*\n\s*(\d+)` → `\1.\2`. -/
def m2 : Str → Option (Str × Str) :=
  seqWsNl lNumDot rDigits (fun lt rt => lt ++ rt)

/-- Stage 3: `신뢰도\s*\n+\s*(\d)` → `신뢰도 \1`. -/
def m3 : Str → Option (Str × Str) :=
  seqWsNl (lLit ("신뢰도".toList)) rDigit (fun lt rt => lt ++ ' ' :: rt)

/-- Stage 4: `(\d+\.?\d*%)\s*,\s*\n+\s*(\d)` → `\1, \2`. -/
def m4 : Str → Option (Str × Str) :=
  seqWsNl (lNumLitCommaWs ("%".toList)) rDigit
    (fun lt rt => lt ++ ',' :: ' ' :: rt)

/-- Stage 5: `([가-힣]),\s*\n+\s*(\d)` → `\1, \2`. -/
def m5 : Str → Option (Str × Str) :=
  seqWsNl lHangulComma rDigit (fun lt rt => lt ++ ',' :: ' ' :: rt)

/-- Stage 6a: `온도는?\s*\n+\s*(\d)` → `온도는 \1`. -/
def m6a : Str → Option (Str × Str) :=
  seqWsNl (lLitOptNeun ("온도".toList)) rDigit
    (fun _ rt => "온도는 ".toList ++ rt)

/-- Stage 6b: `습도는?\s*\n+\s*(\d)` → `습도는 \1`. -/
def m6b : Str → Option (Str × Str) :=
  seqWsNl (lLitOptNeun ("습도".toList)) rDigit
    (fun _ rt => "습도는 ".toList ++ rt)

/-- Stage 6c: `(\d+\.?\d*°C)\s*,\s*\n+\s*(\d)` → `\1, \2`. -/
def m6c : Str → Option (Str × Str) :=
  seqWsNl (lNumLitCommaWs ("°C".toList)) rDigit
    (fun lt rt => lt ++ ',' :: ' ' :: rt)

/-- Stage 6d: `(\d+\.?\d*)\s*\n+\s*(°C)` → `\1\2`. -/
def m6d : Str → Option (Str × Str) :=
  seqWsNl parseNum rLitCdeg (fun lt rt => lt ++ rt)

/-- Stage 7: `([가-힣])\s*\n+\s*(\d)` → `\1 \2`. -/
def m7 : Str → Option (Str × Str) :=
  seqWsNl (lChar hangul) rDigit (fun lt rt => lt ++ ' ' :: rt)

/-- Stage 8a: `(\d+\.?\d*°C)\s*\n+\s*([가-힣])` → `\1\2`. -/
def m8a : Str → Option (Str × Str) :=
  seqWsNl (lNumLit ("°C".toList)) rHangul (fun lt rt => lt ++ rt)

/-- Stage 8b: `(\d+\.?\d*%)\s*\n+\s*([가-힣])` → `\1\2`. -/
def m8b : Str → Option (Str × Str) :=
  seqWsNl (lNumLit ("%".toList)) rHangul (fun lt rt => lt ++ rt)

/-- Stage 8c: `(\d+\.?\d*)\s*\n+\s*([가-힣])` → `\1\2`. -/
def m8c : Str → Option (Str × Str) :=
  seqWsNl parseNum rHangul (fun lt rt => lt ++ rt)

/-- Stage 9a: `\)\s*\n+\s*([가-힣])` → `)\1`. -/
def m9a : Str → Option (Str × Str) :=
  seqWsNl (lChar (fun c => c == ')')) rHangul (fun lt rt => lt ++ rt)

/-- Stage 9b: the josa variant of 9a. -/
def m9b : Str → Option (Str × Str) :=
  seqWsNl (lChar (fun c => c == ')')) rJosa (fun lt rt => lt ++ rt)

/-- Stage 10: `:\s*\n+\s*([가-힣])` → `: \1`. -/
def m10 : Str → Option (Str × Str) :=
  seqWsNl (lChar (fun c => c == ':')) rHangul (fun lt rt => lt ++ ' ' :: rt)

/-- Stage 11a: `,\s*\n+\s*(\d)` → `, \1`. -/
def m11a : Str → Option (Str × Str) :=
  seqWsNl (lChar (fun c => c == ',')) rDigit (fun lt rt => lt ++ ' ' :: rt)

/-- Stage 11b: `,\s*\n+\s*([가-힣])` → `, \1`. -/
def m11b : Str → Option (Str × Str) :=
  seqWsNl (lChar (fun c => c == ',')) rHangul (fun lt rt => lt ++ ' ' :: rt)

/-- Lookahead `\d+\.\s` at the start of `rest`. -/
def aheadNumDotWs (rest : Str) : Bool :=
  let d := rest.takeWhile pyDigit
  if d.isEmpty then false
  else
    match rest.drop d.length with
    | c :: x :: _ => c == '.' && pySpace x
    | _ => false

/-- Lookahead `-\s`. -/
def aheadDashWs (rest : Str) : Bool :=
  match rest with
  | c :: x :: _ => c == '-' && pySpace x
  | _ => false

/-- Lookahead `$` right after the consumed newline (Python `$` without
MULTILINE: end of string, or just before a single final newline). -/
def aheadEnd (rest : Str) : Bool :=
  match rest with
  | [] => true
  | [c] => c == '\n'
  | _ => false

/-- Stage 12: `\n(?!\d+\.\s)(?!-\s)(?!$)` → `' '`. -/
def m12 (s : Str) : Option (Str × Str) :=
  match s with
  | [] => none
  | c :: rest =>
    if c = '\n' then
      if aheadNumDotWs rest || aheadDashWs rest || aheadEnd rest then none
      else some ([' '], rest)
    else none

/-- Stage 13: `'  +'` → `' '` (runs of two or more spaces). -/
def m13 (s : Str) : Option (Str × Str) :=
  let r := s.takeWhile (fun c => c == ' ')
  if 2 ≤ r.length then some ([' '], s.drop r.length) else none

def collapseSpaces (s : Str) : Str := reSub m13 s

/-- `PDFGenerator._fix_line_breaks`: the stage-0 normalisations followed
by stages 1-13, applied in source order (innermost first). -/
def fixLineBreaks (text : Str) : Str :=
  if text.isEmpty then text
  else
    collapseSpaces (reSub m12 (reSub m11b (reSub m11a (reSub m10 (reSub m9b
      (reSub m9a (reSub m8c (reSub m8b (reSub m8a (reSub m7 (reSub m6d
      (reSub m6c (reSub m6b (reSub m6a (reSub m5 (reSub m4 (reSub m3
      (reSub m2 (stage1Loop 10 (reSub mNlRun (replaceAll ['\r'] ['\n']
      (replaceAll ['\r', '\n'] ['\n'] text))))))))))))))))))))))

/-- The chunking loop of `_wrap_text`: peel `max_length`-character
slices while the text is longer than `max_length`. -/
def wrapChunksGo (maxLen : Nat) : Nat → Str → List Str
  | 0, text => [text]
  | fuel + 1, text =>
    if text.length ≤ maxLen then [text]
    else text.take maxLen :: wrapChunksGo maxLen fuel (text.drop maxLen)

def wrapChunks (maxLen : Nat) (text : Str) : List Str :=
  wrapChunksGo maxLen text.length text

/-- `PDFGenerator._wrap_text`: repair line breaks, then slice and join
with newlines. -/
def wrapText (maxLen : Nat) (text : Str) : Str :=
  Pipe.joinNl (wrapChunks maxLen (fixLineBreaks text))

def gradeLabelLit : Str := "위험도 등급:".toList

/-- Python `pat in s`. -/
def containsSub (pat s : Str) : Bool :=
  (List.range (s.length + 1)).any (fun i => startsWithL pat (s.drop i))

/-- Backtracking of `\s*(.+?)(?:\n|$)` after the label: try offsets
`k, k-1, ..., 0` into `rest`, accepting the first whose next character
exists and is not a newline; the group runs to the next newline or the
end. -/
def tryFrom (rest : Str) : Nat → Option Str
  | 0 =>
    match rest.head? with
    | none => none
    | some c =>
      if c = '\n' then none
      else some (rest.takeWhile (fun x => x != '\n'))
  | s + 1 =>
    match (rest.drop (s + 1)).head? with
    | none => tryFrom rest s
    | some c =>
      if c = '\n' then tryFrom rest s
      else some ((rest.drop (s + 1)).takeWhile (fun x => x != '\n'))

def searchGradeAt (rest : Str) : Option Str :=
  tryFrom rest (rest.takeWhile pySpace).length

/-- `re.search(r'위험도 등급:\s*(.+?)(?:\n|$)', info)`, returning the
stripped group: scan for occurrences of the label, left to right, and
take the first at which the tail matches. -/
def searchGradeGo : Nat → Str → Option Str
  | 0, _ => none
  | fuel + 1, s =>
    match s with
    | [] => none
    | _ :: cs =>
      if startsWithL gradeLabelLit s then
        match searchGradeAt (s.drop gradeLabelLit.length) with
        | some g => some (strip g)
        | none => searchGradeGo fuel cs
      else searchGradeGo fuel cs

def searchGrade (info : Str) : Option Str := searchGradeGo info.length info

/-- `info.strip().split('\n')[0].strip()`. -/
def firstLineOf (info : Str) : Str :=
  strip ((strip info).takeWhile (fun c => c != '\n'))

def gradeCodes : List Str := [['E'], ['O'], ['X', '1'], ['X', '2'], ['S']]

def boundaryOk : Str → Bool
  | [] => true
  | c :: _ => pySpace c

/-- `^(E|O|X1|X2|S)(?:\s|$)` — alternatives tried in order. -/
def gradeTry (line : Str) : List Str → Option Str
  | [] => none
  | g :: gs =>
    if startsWithL g line && boundaryOk (line.drop g.length) then some g
    else gradeTry line gs

def gradeMatch (line : Str) : Option Str := gradeTry line gradeCodes

/-- The `위험도평가` block of `_parse_document_content` (lines 324-339):
the resolved risk grade, `none` when nothing is recorded. -/
def riskGrade (info : Str) : Option Str :=
  if containsSub gradeLabelLit info then
    match searchGrade info with
    | some v => some v
    | none => none
  else if (strip info).isEmpty then none
  else
    match gradeMatch (firstLineOf info) with
    | some g => some g
    | none => some (firstLineOf info)

/-- No two adjacent spaces anywhere in `s`. -/
def NDS (s : Str) : Prop :=
  ∀ n, startsWithL [' ', ' '] (s.drop n) = false

end PDF

def c1Src : Str := "1.\n2.\n3. a".toList

namespace Gen

open RD

structure Det where
  cls_name : Str
  detail : Str
  rail_type : Str
deriving DecidableEq, Repr

def fallbackQuery : Str := "철도 결함 점검".toList

/-- `" ".join(parts)`. -/
def joinSpace : List Str → Str
  | [] => []
  | [s] => s
  | s :: rest => s ++ ' ' :: joinSpace rest

/-- One loop iteration of `_build_rag_query`, appending to the
accumulated `query_parts`. -/
def detStep (acc : List Str) (d : Det) : List Str :=
  let acc1 := if d.cls_name ≠ [] ∧ d.detail ≠ [] then
      acc ++ [d.cls_name ++ ' ' :: d.detail]
    else acc
  if d.rail_type ≠ [] then acc1 ++ [d.rail_type] else acc1

def buildQueryParts (dets : List Det) : List Str := dets.foldl detStep []

/-- `DocumentGenerator._build_rag_query` (over the detection list of the
vision result). -/
def buildRagQuery (dets : List Det) : Str :=
  let parts := buildQueryParts dets
  if parts = [] then fallbackQuery else joinSpace parts

/-- The parts contributed by one detection. -/
def detParts (d : Det) : List Str :=
  (if d.cls_name ≠ [] ∧ d.detail ≠ [] then [d.cls_name ++ ' ' :: d.detail] else [])
  ++ (if d.rail_type ≠ [] then [d.rail_type] else [])

def detPartsAll : List Det → List Str
  | [] => []
  | d :: ds => detParts d ++ detPartsAll ds

/-- The query-construction rule as the claim states it: all
`"component detail"` pairs, then each distinct non-empty rail-category
exactly once. -/
def buildRagQuerySpec (dets : List Det) : Str :=
  let pairParts := dets.foldl
    (fun acc d =>
      if d.cls_name ≠ [] ∧ d.detail ≠ [] then acc ++ [d.cls_name ++ ' ' :: d.detail]
      else acc) []
  let cats := dets.foldl
    (fun acc d =>
      if d.rail_type ≠ [] ∧ d.rail_type ∉ acc then acc ++ [d.rail_type] else acc) []
  let parts := pairParts ++ cats
  if parts = [] then fallbackQuery else joinSpace parts

/-- Search-result chunk as consumed by `generate`. -/
structure RChunk where
  regulation_id : Str
  content : Str
deriving DecidableEq, Repr

/-- `f"[규정 {reg_id}]\n{content}"`. -/
def ragCtxPart (c : RChunk) : Str :=
  "[규정 ".toList ++ c.regulation_id ++ ']' :: '\n' :: c.content

/-- `"\n\n".join(parts)`. -/
def joinNl2 : List Str → Str
  | [] => []
  | [s] => s
  | s :: rest => s ++ '\n' :: '\n' :: joinNl2 rest

def formatRagContext (chunks : List RChunk) : Str :=
  joinNl2 (chunks.map ragCtxPart)

structure GenRagOut where
  rag_context : Str
  rag_used : Bool
deriving DecidableEq, Repr

/-- The RAG-decision slice of `DocumentGenerator.generate`: `rag_context`
starts empty; when RAG is requested and detections exist, the external
search runs and a non-empty result list sets the context; the returned
flag is `bool(rag_context)`.  The configured threshold is passed through
untouched (it is never read in this path). -/
def generateRag (threshold : ℚ) (use_rag : Bool) (dets : List Det)
    (searchResult : List RChunk) : GenRagOut :=
  let _ := threshold
  let rag_context : Str :=
    if use_rag = true ∧ dets ≠ [] then
      (if searchResult ≠ [] then formatRagContext searchResult else [])
    else []
  { rag_context := rag_context, rag_used := !rag_context.isEmpty }

end Gen

def c5Det : Gen.Det := ⟨[], [], "고속철도".toList⟩

namespace RD

theorem mem_takeWhile {p : Char → Bool} {a : Char} :
    ∀ {s : Str}, a ∈ s.takeWhile p → a ∈ s := by
  intro s
  induction s with
  | nil => intro h; simp at h
  | cons c cs ih =>
    intro h
    rw [List.takeWhile_cons] at h
    by_cases hc : p c = true
    · rw [if_pos hc] at h
      rcases List.mem_cons.mp h with h | h
      · exact List.mem_cons.mpr (Or.inl h)
      · exact List.mem_cons.mpr (Or.inr (ih h))
    · rw [if_neg hc] at h
      simp at h

/-- If the matcher never fires on strings avoiding a character class,
the scan is the identity on such strings. -/
theorem subFuel_eq_of_no_match (m : Str → Option (Str × Str))
    (p : Char → Bool)
    (hm : ∀ t : Str, (∀ a ∈ t, p a = false) → m t = none) :
    ∀ (fuel : Nat) (s : Str), (∀ a ∈ s, p a = false) → subFuel m fuel s = s := by
  intro fuel
  induction fuel with
  | zero => intro s _; rfl
  | succ n ih =>
    intro s hs
    cases s with
    | nil => rfl
    | cons c cs =>
      have hnone := hm (c :: cs) hs
      have hcs : ∀ a ∈ cs, p a = false := by
        intro a ha; exact hs a (List.mem_cons.mpr (Or.inr ha))
      simp [subFuel, hnone, ih cs hcs]

theorem reSub_eq_of_no_match (m : Str → Option (Str × Str))
    (p : Char → Bool)
    (hm : ∀ t : Str, (∀ a ∈ t, p a = false) → m t = none)
    (s : Str) (hs : ∀ a ∈ s, p a = false) : reSub m s = s :=
  subFuel_eq_of_no_match m p hm s.length s hs

end RD

namespace Chunker

open RD

theorem chunkLoop_pairsFlat (ps : List (Str × Str)) :
    chunkLoop (pairsFlat ps) = ps.map (fun p => mkReg p.1 p.2) := by
  induction ps with
  | nil => rfl
  | cons p ps ih =>
    cases ps with
    | nil => rfl
    | cons q qs =>
      simp only [pairsFlat, chunkLoop, List.map_cons] at *
      rw [ih]

theorem applyOverlapGo_length (overlap total : Nat) :
    ∀ (regs : List Reg) (prev : Option Reg) (idx : Nat),
      (applyOverlapGo overlap total prev idx regs).length = regs.length := by
  intro regs
  induction regs with
  | nil => intro prev idx; rfl
  | cons r rest ih =>
    intro prev idx
    simp [applyOverlapGo, ih]

theorem applyOverlapGo_get_index (overlap total : Nat) :
    ∀ (regs : List Reg) (prev : Option Reg) (idx i : Nat)
      (h : i < (applyOverlapGo overlap total prev idx regs).length),
      ((applyOverlapGo overlap total prev idx regs).get ⟨i, h⟩).chunk_index
        = idx + i := by
  intro regs
  induction regs with
  | nil =>
    intro prev idx i h
    simp [applyOverlapGo] at h
  | cons r rest ih =>
    intro prev idx i h
    cases i with
    | zero => rfl
    | succ j =>
      have h' : j < (applyOverlapGo overlap total (some r) (idx + 1) rest).length :=
        Nat.lt_of_succ_lt_succ h
      have hget : ((applyOverlapGo overlap total prev idx (r :: rest)).get ⟨j + 1, h⟩)
          = (applyOverlapGo overlap total (some r) (idx + 1) rest).get ⟨j, h'⟩ := rfl
      rw [hget, ih (some r) (idx + 1) j h']
      omega

theorem chunk_length (overlap : Nat) (text : Str) :
    (chunk overlap text).length = numMarkers text := by
  unfold chunk reSplitParts numMarkers
  rw [List.tail_cons, chunkLoop_pairsFlat, applyOverlap, applyOverlapGo_length,
    List.length_map]

/-- The content produced by `_apply_overlap` for the unit at position `i`:
the unit's own content, with `"..." + last overlap chars of previous + "\n\n"`
prepended when a previous unit exists and `"\n\n" + first overlap chars of
next + "..."` appended when a next unit exists. -/
theorem applyOverlapGo_content (o total : Nat) :
    ∀ (regs : List Reg) (prev : Option Reg) (idx i : Nat), i < regs.length →
      ((applyOverlapGo o total prev idx regs).getD i dChunk).content =
        (match i with
         | 0 =>
           (match prev with
            | none => []
            | some p => ell ++ pyTakeLast o p.content ++ nl2)
         | j + 1 => ell ++ pyTakeLast o (regs.getD j dReg).content ++ nl2)
        ++ (regs.getD i dReg).content
        ++ (if i + 1 < regs.length then
              nl2 ++ (regs.getD (i + 1) dReg).content.take o ++ ell
            else []) := by
  intro regs
  induction regs with
  | nil => intro prev idx i h; simp at h
  | cons r rest ih =>
    intro prev idx i h
    cases i with
    | zero =>
      cases rest with
      | nil => cases prev with
        | none => simp [applyOverlapGo]
        | some p => simp [applyOverlapGo]
      | cons nxt rest' => cases prev with
        | none => simp [applyOverlapGo]
        | some p => simp [applyOverlapGo]
    | succ j =>
      have hj : j < rest.length := Nat.lt_of_succ_lt_succ h
      have := ih (some r) (idx + 1) j hj
      have hgd : ((applyOverlapGo o total prev idx (r :: rest)).getD (j + 1) dChunk)
          = ((applyOverlapGo o total (some r) (idx + 1) rest).getD j dChunk) := rfl
      rw [hgd, this]
      cases j with
      | zero => simp [List.length_cons, Nat.succ_lt_succ_iff]
      | succ k => simp [List.length_cons, Nat.succ_lt_succ_iff]

end Chunker

/-- **C6** For any source text with exactly K occurrences of the unit-marker
pattern `\[규정 ID\]:\s*[\w-]+`, `RegulationChunker.chunk` returns exactly K
units whose `chunk_index` values are `0..K-1` in document order; the text
before the first marker is discarded (the result depends only on the
marker/following-text pairs); and K = 0 yields the empty list. -/
theorem c6_chunk_marker_counts (overlap : Nat) (text : Str) :
    (Chunker.chunk overlap text).length = Chunker.numMarkers text
    ∧ (∀ (i : Nat) (h : i < (Chunker.chunk overlap text).length),
        ((Chunker.chunk overlap text).get ⟨i, h⟩).chunk_index = i)
    ∧ (Chunker.numMarkers text = 0 → Chunker.chunk overlap text = [])
    ∧ Chunker.chunk overlap text
        = Chunker.applyOverlap overlap
            (Chunker.chunkLoop (Chunker.pairsFlat (Chunker.scanMarkers text).2)) := by
  refine ⟨Chunker.chunk_length overlap text, ?_, ?_, rfl⟩
  · intro i h
    have := Chunker.applyOverlapGo_get_index overlap
      (Chunker.chunkLoop (Chunker.reSplitParts text).tail).length
      (Chunker.chunkLoop (Chunker.reSplitParts text).tail) none 0 i h
    simpa using this
  · intro h0
    have hlen := Chunker.chunk_length overlap text
    rw [h0] at hlen
    exact List.length_eq_zero.mp hlen

/-- Witness for C6: on the two-marker scenario text the second unit has
index 1, and a marker-free text yields the empty list. -/
theorem c6_chunk_marker_counts_witness :
    ((Chunker.chunk 3 Chunker.c7SrcReal).get ⟨1, by decide⟩).chunk_index = 1
    ∧ Chunker.chunk 3 ("no markers here".toList) = [] :=
  ⟨(c6_chunk_marker_counts 3 Chunker.c7SrcReal).2.1 1 (by decide),
   (c6_chunk_marker_counts 3 ("no markers here".toList)).2.2.1 (by decide)⟩

/-- **C7 counterexample** The claim's literal source uses `[ID]:` lines,
but the chunker's marker pattern is `\[규정 ID\]:\s*[\w-]+`, so this source
contains zero markers and chunking it yields no units — not two. -/
theorem c7_counterexample :
    Chunker.chunk 3 Chunker.c7SrcLit = []
    ∧ (Chunker.chunk 3 Chunker.c7SrcLit).length ≠ 2 := by
  constructor
  · decide
  · decide

/-- **C7 (amended)** With the code's actual marker (`[규정 ID]:`), the
two-marker scenario with overlap 3 yields two units; unit 0 ends with the
first 3 characters of unit 1's content (`"[규정"` — unit contents start with
the marker line) followed by the appended ellipsis, and unit 1 begins with
an ellipsis followed by the last 3 characters of unit 0's body (`"bar"`).
In general (for positive overlap) the prepended padding is the last
`min overlap len` characters of the previous unit's content and the
appended padding is the first `min overlap len` characters of the next
unit's content — the full neighbour content when the neighbour is shorter
than the overlap. -/
theorem c7_overlap_padding :
    ((Chunker.chunk 3 Chunker.c7SrcReal).map Chunker.Chunk.content
      = ["[규정 ID]: A-1\n\nfoo bar\n\n[규정...".toList,
         "...bar\n\n[규정 ID]: A-2\n\nbaz".toList])
    ∧ (∀ (n : Nat) (s : Str), 0 < n →
        (Chunker.pyTakeLast n s).length = min n s.length
        ∧ (s.length ≤ n → Chunker.pyTakeLast n s = s))
    ∧ (∀ (n : Nat) (s : Str),
        (s.take n).length = min n s.length
        ∧ (s.length ≤ n → s.take n = s))
    ∧ (∀ (o : Nat) (regs : List Chunker.Reg) (i : Nat), i < regs.length →
        ((Chunker.applyOverlap o regs).getD i Chunker.dChunk).content =
          (match i with
           | 0 => []
           | j + 1 => Chunker.ell
               ++ Chunker.pyTakeLast o (regs.getD j Chunker.dReg).content
               ++ Chunker.nl2)
          ++ (regs.getD i Chunker.dReg).content
          ++ (if i + 1 < regs.length then
                Chunker.nl2 ++ (regs.getD (i + 1) Chunker.dReg).content.take o
                  ++ Chunker.ell
              else [])) := by
  refine ⟨by decide, ?_, ?_, ?_⟩
  · intro n s hn
    constructor
    · unfold Chunker.pyTakeLast
      rw [if_neg (Nat.pos_iff_ne_zero.mp hn)]
      rw [List.length_drop]
      omega
    · intro hle
      unfold Chunker.pyTakeLast
      rw [if_neg (Nat.pos_iff_ne_zero.mp hn)]
      have : s.length - n = 0 := Nat.sub_eq_zero_of_le hle
      rw [this, List.drop_zero]
  · intro n s
    exact ⟨by rw [List.length_take], List.take_of_length_le⟩
  · intro o regs i h
    exact Chunker.applyOverlapGo_content o regs.length regs none 0 i h

namespace Pipe

open RD

theorem foldl_resOfItem_append (step : VItem → Except Str Str) :
    ∀ (items : List VItem) (acc : List ItemRes),
      items.foldl
        (fun results item =>
          match step item with
          | Except.ok doc => results ++ [⟨item.filename, item.folder, doc⟩]
          | Except.error e => results ++ [⟨item.filename, item.folder, failDoc e⟩])
        acc = acc ++ items.map (resOfItem step) := by
  intro items
  induction items with
  | nil => intro acc; simp
  | cons it its ih =>
    intro acc
    rw [List.foldl_cons, ih, List.map_cons]
    cases h : step it <;> simp [resOfItem, h]

theorem processItems_eq_map (step : VItem → Except Str Str)
    (items : List VItem) :
    processItems step items = items.map (resOfItem step) := by
  unfold processItems
  rw [foldl_resOfItem_append, List.nil_append]

theorem length_dropWhile_le (p : Str → Bool) :
    ∀ l : List Str, (l.dropWhile p).length ≤ l.length := by
  intro l
  induction l with
  | nil => simp
  | cons a as ih =>
    rw [List.dropWhile_cons]
    by_cases h : p a = true
    · rw [if_pos h]
      exact le_trans ih (Nat.le_succ _)
    · rw [if_neg h]

theorem specGoF_congr :
    ∀ (f1 : Nat) (f2 : Nat) (lines : List Str),
      lines.length ≤ f1 → lines.length ≤ f2 →
      specGoF f1 lines = specGoF f2 lines := by
  intro f1
  induction f1 with
  | zero =>
    intro f2 lines h1 _
    have : lines = [] := List.eq_nil_of_length_eq_zero (Nat.le_zero.mp h1)
    subst this
    cases f2 <;> rfl
  | succ n ih =>
    intro f2 lines h1 h2
    cases lines with
    | nil => cases f2 <;> rfl
    | cons line rest =>
      cases f2 with
      | zero => simp at h2
      | succ m =>
        have hr1 : rest.length ≤ n := Nat.lt_succ_iff.mp h1
        have hr2 : rest.length ≤ m := Nat.lt_succ_iff.mp h2
        simp only [specGoF]
        cases hl : headerLabel line with
        | none => exact ih m rest hr1 hr2
        | some label =>
          have hd : (rest.dropWhile noHeader).length ≤ rest.length :=
            length_dropWhile_le noHeader rest
          rw [ih m (rest.dropWhile noHeader) (le_trans hd hr1) (le_trans hd hr2)]

theorem specGroups_cons_none (line : Str) (rest : List Str)
    (hl : headerLabel line = none) :
    specGroups (line :: rest) = specGroups rest := by
  unfold specGroups
  simp only [List.length_cons, specGoF, hl]

theorem specGroups_cons_some (line : Str) (rest : List Str) (label : Str)
    (hl : headerLabel line = some label) :
    specGroups (line :: rest)
      = (label, strip (joinNl (rest.takeWhile noHeader)))
          :: specGroups (rest.dropWhile noHeader) := by
  unfold specGroups
  simp only [List.length_cons, specGoF, hl]
  have hd : (rest.dropWhile noHeader).length ≤ rest.length :=
    length_dropWhile_le noHeader rest
  rw [specGoF_congr rest.length (rest.dropWhile noHeader).length
    (rest.dropWhile noHeader) hd (le_refl _)]

theorem parseDocGo_some :
    ∀ (lines : List Str) (k : Str) (curr : List Str)
      (sections : List (Str × Str)),
      parseDocGo (some k) curr lines sections
        = (specGroups (lines.dropWhile noHeader)).foldl
            (fun d g => dictSet d g.1 g.2)
            (dictSet sections k (strip (joinNl (curr ++ lines.takeWhile noHeader)))) := by
  intro lines
  induction lines with
  | nil =>
    intro k curr sections
    simp [parseDocGo, specGroups, specGoF]
  | cons line rest ih =>
    intro k curr sections
    cases hl : headerLabel line with
    | none =>
      have hnh : noHeader line = true := by simp [noHeader, hl]
      simp only [parseDocGo, hl]
      rw [ih]
      rw [List.dropWhile_cons, List.takeWhile_cons, hnh]
      simp
    | some label =>
      have hnh : noHeader line = false := by simp [noHeader, hl]
      simp only [parseDocGo, hl]
      rw [ih]
      rw [List.dropWhile_cons, List.takeWhile_cons, hnh]
      simp only [Bool.false_eq_true, if_false, List.nil_append]
      rw [specGroups_cons_some line rest label hl]
      simp [List.foldl_cons]

theorem parseDocGo_none :
    ∀ (lines : List Str) (sections : List (Str × Str)),
      parseDocGo none [] lines sections
        = (specGroups lines).foldl (fun d g => dictSet d g.1 g.2) sections := by
  intro lines
  induction lines with
  | nil => intro sections; simp [parseDocGo, specGroups, specGoF]
  | cons line rest ih =>
    intro sections
    cases hl : headerLabel line with
    | none =>
      simp only [parseDocGo, hl]
      rw [ih, specGroups_cons_none line rest hl]
    | some label =>
      simp only [parseDocGo, hl]
      rw [parseDocGo_some, specGroups_cons_some line rest label hl]
      simp [List.foldl_cons]

/-- `re.match(r'^\\[(.+?)\\]$', line.strip())` succeeds exactly when the
stripped line is `[` + non-empty newline-free body + `]`. -/
theorem headerLabel_iff (line : Str) :
    (headerLabel line).isSome = true
      ↔ ∃ mid : Str, mid ≠ [] ∧ (∀ c ∈ mid, c ≠ '\n')
          ∧ RD.strip line = '[' :: (mid ++ [']']) := by
  cases h : RD.strip line with
  | nil =>
    simp only [headerLabel, h]
    constructor
    · intro hfalse; simp at hfalse
    · rintro ⟨mid, _, _, heq⟩; exact absurd heq (by simp)
  | cons c rest =>
    simp only [headerLabel, h]
    by_cases hc : c = '[' ∧ 2 ≤ rest.length ∧ rest.getLast? = some ']'
        ∧ ∀ x ∈ rest.dropLast, x ≠ '\n'
    · rw [if_pos hc]
      obtain ⟨hc1, hc2, hc3, hc4⟩ := hc
      subst hc1
      constructor
      · intro _
        refine ⟨rest.dropLast, ?_, hc4, ?_⟩
        · intro hnil
          have := List.length_dropLast rest
          rw [hnil] at this
          simp at this
          omega
        · have hne : rest ≠ [] := by
            intro hnil; rw [hnil] at hc2; simp at hc2
          have hlast : rest.getLast hne = ']' := by
            have := List.getLast?_eq_getLast rest hne
            rw [this] at hc3
            exact Option.some_injective _ hc3
          have hsplit : rest.dropLast ++ [rest.getLast hne] = rest :=
            List.dropLast_append_getLast hne
          rw [hlast] at hsplit
          rw [hsplit]
      · intro _; simp
    · rw [if_neg hc]
      constructor
      · intro hfalse; simp at hfalse
      · rintro ⟨mid, hmne, hmnl, heq⟩
        have hceq : c = '[' := (List.cons.injEq _ _ _ _ ▸ heq).1
        have hrest : rest = mid ++ [']'] := (List.cons.injEq _ _ _ _ ▸ heq).2
        exfalso
        apply hc
        refine ⟨hceq, ?_, ?_, ?_⟩
        · rw [hrest, List.length_append]
          have : 1 ≤ mid.length := by
            cases mid with
            | nil => exact absurd rfl hmne
            | cons _ _ => simp
          simp
          omega
        · rw [hrest, List.getLast?_concat]
        · rw [hrest, List.dropLast_concat]
          exact hmnl

end Pipe

/-- **C9** `parse_document_sections` equals the declarative description:
drop all lines before the first header, group the remaining lines under
their headers (a header is exactly a line whose stripped form is
`[` + non-empty body + `]`; an inline `[Label] value` line is not a
header), each section's value being the stripped newline-join of its
lines up to the next header or end of text, collected with Python-dict
(last-wins) semantics.  The embedding is a total function, so parsing
never raises. -/
theorem c9_parse_document_sections (content : Str) :
    Pipe.parseDocumentSections content
      = Pipe.dictOfGroups (Pipe.specGroups (Pipe.splitNl content))
    ∧ (∀ line : Str, (Pipe.headerLabel line).isSome = true
        ↔ ∃ mid : Str, mid ≠ [] ∧ (∀ c ∈ mid, c ≠ '\n')
            ∧ RD.strip line = '[' :: (mid ++ [']'])) :=
  ⟨Pipe.parseDocGo_none (Pipe.splitNl content) [],
   fun line => Pipe.headerLabel_iff line⟩

/-- **C3** If exactly one item `j` of the batch fails (its
generation/review step raises) and every other item's step succeeds, the
orchestrator's result collection has exactly one entry per item: entry
`j` is the failure row carrying the error message, every other entry is
the success row with its generated document, and processing continues
past the failure. -/
theorem c3_failure_isolation (step : Pipe.VItem → Except Str Str)
    (items : List Pipe.VItem) (j : Nat) (hj : j < items.length)
    (e : Str) (d : Nat → Str)
    (hfail : step (items.get ⟨j, hj⟩) = Except.error e)
    (hok : ∀ (i : Nat) (hi : i < items.length), i ≠ j →
      step (items.get ⟨i, hi⟩) = Except.ok (d i)) :
    (Pipe.processItems step items).length = items.length
    ∧ (∀ hj' : j < (Pipe.processItems step items).length,
        ((Pipe.processItems step items).get ⟨j, hj'⟩).document = Pipe.failDoc e
        ∧ ((Pipe.processItems step items).get ⟨j, hj'⟩).filename
            = (items.get ⟨j, hj⟩).filename)
    ∧ (∀ (i : Nat) (hi : i < (Pipe.processItems step items).length), i ≠ j →
        ((Pipe.processItems step items).get ⟨i, hi⟩).document = d i) := by
  have hmap := Pipe.processItems_eq_map step items
  refine ⟨by rw [hmap, List.length_map], ?_, ?_⟩
  · intro hj'
    have : (Pipe.processItems step items).get ⟨j, hj'⟩
        = Pipe.resOfItem step (items.get ⟨j, hj⟩) := by
      simp only [hmap, List.get_eq_getElem, List.getElem_map]
    rw [this]
    unfold Pipe.resOfItem
    rw [hfail]
    exact ⟨rfl, rfl⟩
  · intro i hi hne
    have hi' : i < items.length := by
      rw [hmap, List.length_map] at hi; exact hi
    have : (Pipe.processItems step items).get ⟨i, hi⟩
        = Pipe.resOfItem step (items.get ⟨i, hi'⟩) := by
      simp only [hmap, List.get_eq_getElem, List.getElem_map]
    rw [this]
    unfold Pipe.resOfItem
    rw [hok i hi' hne]

/-- Witness for C3: a two-item batch whose first item fails. -/
theorem c3_failure_isolation_witness :
    (Pipe.processItems stepW itemsW).length = 2
    ∧ ((Pipe.processItems stepW itemsW).get ⟨0, by decide⟩).document
        = Pipe.failDoc ("boom".toList) := by
  have hok : ∀ (i : Nat) (hi : i < itemsW.length), i ≠ 0 →
      stepW (itemsW.get ⟨i, hi⟩) = Except.ok (dW i) := by
    intro i hi hne
    have hi2 : i < 2 := by simpa [itemsW] using hi
    interval_cases i
    · exact absurd rfl hne
    · rfl
  have h := c3_failure_isolation stepW itemsW 0 (by decide) ("boom".toList) dW rfl hok
  exact ⟨h.1, (h.2.1 (by decide)).1⟩

/-- **C2 counterexample** A run whose archive extracts but yields no
vision results aborts with the HTTP 400 error after extraction, and the
cleanup call is never reached: the temporary extraction directory is not
removed on this failure path. -/
theorem c2_counterexample :
    (Pipe.processVisionZipBody (fun _ => Except.ok []) []).cleanupCalled = false
    ∧ (Pipe.processVisionZipBody (fun _ => Except.ok []) []).response
        = Except.error Pipe.noResultsMsg :=
  ⟨rfl, rfl⟩

/-- **C2 (amended)** The temporary extraction directory is removed on the
success path (the cleanup call follows the processing loop), but a run
that aborts with an error after extraction — such as the HTTP 400 raised
when no vision results are found — propagates past the cleanup call, so
the directory is not removed on failure paths. -/
theorem c2_cleanup_success_only (step : Pipe.VItem → Except Str Str)
    (items : List Pipe.VItem) :
    (items ≠ [] →
      (Pipe.processVisionZipBody step items).cleanupCalled = true
      ∧ (Pipe.processVisionZipBody step items).response
          = Except.ok (Pipe.processItems step items))
    ∧ (items = [] →
      (Pipe.processVisionZipBody step items).cleanupCalled = false
      ∧ (Pipe.processVisionZipBody step items).response
          = Except.error Pipe.noResultsMsg) := by
  constructor
  · intro h
    simp [Pipe.processVisionZipBody, h]
  · intro h
    subst h
    exact ⟨rfl, rfl⟩

/-- Witness for C2 (amended): a one-item run reaches cleanup; the empty
run does not. -/
theorem c2_cleanup_success_only_witness :
    (Pipe.processVisionZipBody stepW [⟨"a".toList, []⟩]).cleanupCalled = true
    ∧ (Pipe.processVisionZipBody stepW []).cleanupCalled = false :=
  ⟨((c2_cleanup_success_only stepW [⟨"a".toList, []⟩]).1 (by decide)).1,
   ((c2_cleanup_success_only stepW []).2 rfl).1⟩

namespace PDF

open RD

theorem gradeTry_mem :
    ∀ (gs : List Str) (line g : Str), gradeTry line gs = some g →
      g ∈ gs ∧ startsWithL g line = true := by
  intro gs
  induction gs with
  | nil => intro line g h; simp [gradeTry] at h
  | cons a as ih =>
    intro line g h
    unfold gradeTry at h
    by_cases hc : (startsWithL a line && boundaryOk (line.drop a.length)) = true
    · rw [if_pos hc] at h
      have hg : a = g := Option.some_injective _ h
      subst hg
      exact ⟨List.mem_cons_self a as, ((Bool.and_eq_true _ _).mp hc).1⟩
    · rw [if_neg hc] at h
      have := ih line g h
      exact ⟨List.mem_cons.mpr (Or.inr this.1), this.2⟩

theorem wrapChunksGo_ne_nil (maxLen fuel : Nat) (text : Str) :
    wrapChunksGo maxLen fuel text ≠ [] := by
  cases fuel with
  | zero => simp [wrapChunksGo]
  | succ n =>
    unfold wrapChunksGo
    by_cases h : text.length ≤ maxLen
    · rw [if_pos h]; simp
    · rw [if_neg h]; simp

theorem wrapChunksGo_spec (maxLen : Nat) (hm : 0 < maxLen) :
    ∀ (fuel : Nat) (text : Str), text.length ≤ fuel →
      (wrapChunksGo maxLen fuel text).flatten = text
      ∧ (∀ c ∈ wrapChunksGo maxLen fuel text, c.length ≤ maxLen)
      ∧ (∀ c ∈ (wrapChunksGo maxLen fuel text).dropLast, c.length = maxLen) := by
  intro fuel
  induction fuel with
  | zero =>
    intro text hlen
    have : text = [] := List.eq_nil_of_length_eq_zero (Nat.le_zero.mp hlen)
    subst this
    refine ⟨rfl, ?_, ?_⟩
    · intro c hc
      simp [wrapChunksGo] at hc
      simp [hc]
    · intro c hc
      simp [wrapChunksGo] at hc
  | succ n ih =>
    intro text hlen
    unfold wrapChunksGo
    by_cases h : text.length ≤ maxLen
    · rw [if_pos h]
      refine ⟨by simp, ?_, ?_⟩
      · intro c hc
        simp at hc
        subst hc
        exact h
      · intro c hc
        simp at hc
    · rw [if_neg h]
      have hlt : maxLen < text.length := Nat.lt_of_not_le h
      have hdrop : (text.drop maxLen).length ≤ n := by
        rw [List.length_drop]
        omega
      obtain ⟨hjoin, hall, hbutlast⟩ := ih (text.drop maxLen) hdrop
      have htake : (text.take maxLen).length = maxLen := by
        rw [List.length_take]
        omega
      refine ⟨?_, ?_, ?_⟩
      · rw [List.flatten_cons, hjoin, List.take_append_drop]
      · intro c hc
        rcases List.mem_cons.mp hc with hc | hc
        · rw [hc, htake]
        · exact hall c hc
      · intro c hc
        obtain ⟨b, l', hbl⟩ :=
          List.exists_cons_of_ne_nil (wrapChunksGo_ne_nil maxLen n (text.drop maxLen))
        rw [hbl] at hc
        rw [List.dropLast_cons₂] at hc
        rcases List.mem_cons.mp hc with hc | hc
        · rw [hc, htake]
        · exact hbutlast c (by rw [hbl]; exact hc)

end PDF

namespace RD

/-- Positional variant of the no-match lemma: if the matcher fails at
every suffix, the scan is the identity. -/
theorem subFuel_eq_of_none_drop (m : Str → Option (Str × Str)) :
    ∀ (fuel : Nat) (s : Str), (∀ n, m (s.drop n) = none) →
      subFuel m fuel s = s := by
  intro fuel
  induction fuel with
  | zero => intro s _; rfl
  | succ k ih =>
    intro s hs
    cases s with
    | nil => rfl
    | cons c cs =>
      have h0 : m (c :: cs) = none := hs 0
      have hcs : ∀ n, m (cs.drop n) = none := fun n => hs (n + 1)
      simp [subFuel, h0, ih cs hcs]

theorem reSub_eq_of_none_drop (m : Str → Option (Str × Str)) (s : Str)
    (hs : ∀ n, m (s.drop n) = none) : reSub m s = s :=
  subFuel_eq_of_none_drop m s.length s hs

theorem subFuel_nil (m : Str → Option (Str × Str)) (fuel : Nat) :
    subFuel m fuel [] = [] := by
  cases fuel <;> rfl

theorem replaceAllGo_eq_of_head_notin (p : Char) (ps rep : Str) :
    ∀ (fuel : Nat) (s : Str), p ∉ s →
      replaceAllGo (p :: ps) rep fuel s = s := by
  intro fuel
  induction fuel with
  | zero => intro s _; rfl
  | succ k ih =>
    intro s hp
    cases s with
    | nil => rfl
    | cons c cs =>
      have hpc : ¬(p = c) := fun h => hp (h ▸ List.mem_cons_self c cs)
      have hsw : startsWithL (p :: ps) (c :: cs) = false := by
        simp [startsWithL, hpc]
      have hcs : p ∉ cs := fun h => hp (List.mem_cons.mpr (Or.inr h))
      simp [replaceAllGo, hsw, ih cs hcs]

theorem replaceAll_eq_of_head_notin (p : Char) (ps rep : Str) (s : Str)
    (hp : p ∉ s) : replaceAll (p :: ps) rep s = s := by
  unfold replaceAll
  rw [if_neg (by simp)]
  exact replaceAllGo_eq_of_head_notin p ps rep s.length s hp

end RD

namespace PDF

open RD

theorem wsNlSplit_none (s : Str) (h : '\n' ∉ s) : wsNlSplit s = none := by
  unfold wsNlSplit
  rw [if_neg]
  intro hmem
  exact h (mem_takeWhile hmem)

theorem seqWsNl_none (left : Str → Option (Str × Nat))
    (right : Str → Option (Str × Str)) (rep : Str → Str → Str)
    (s : Str) (h : '\n' ∉ s) : seqWsNl left right rep s = none := by
  unfold seqWsNl
  cases hL : left s with
  | none => rfl
  | some ln =>
    obtain ⟨lt, n⟩ := ln
    have hd : '\n' ∉ s.drop n := fun hm => h (List.mem_of_mem_drop hm)
    dsimp only
    rw [wsNlSplit_none _ hd]

theorem mNlRun_none (s : Str) (h : '\n' ∉ s) : mNlRun s = none := by
  unfold mNlRun
  rw [if_neg]
  intro h2
  cases hr : s.takeWhile (fun c => c == '\n') with
  | nil => rw [hr] at h2; simp at h2
  | cons a as =>
    have ha : a ∈ s.takeWhile (fun c => c == '\n') := by
      rw [hr]; exact List.mem_cons_self a as
    have := List.mem_takeWhile_imp ha
    have haeq : a = '\n' := by simpa using this
    exact h (haeq ▸ mem_takeWhile ha)

theorem mParen_none (s : Str) (h : '\n' ∉ s) : mParen s = none := by
  cases s with
  | nil => rfl
  | cons c rest =>
    simp only [mParen]
    by_cases hc : c = '('
    · rw [if_pos hc]
      cases hd : rest.drop (rest.takeWhile (fun x => x != ')')).length with
      | nil => rfl
      | cons a rest2 =>
        dsimp only
        rw [if_neg]
        rintro ⟨_, hmem⟩
        exact h (List.mem_cons.mpr (Or.inr (mem_takeWhile hmem)))
    · rw [if_neg hc]

theorem m12_none (s : Str) (h : '\n' ∉ s) : m12 s = none := by
  cases s with
  | nil => rfl
  | cons c rest =>
    simp only [m12]
    rw [if_neg]
    intro hc
    exact h (hc ▸ List.mem_cons_self c rest)

theorem reSub_id_of_noNl (m : Str → Option (Str × Str))
    (hm : ∀ t : Str, '\n' ∉ t → m t = none)
    (s : Str) (hs : '\n' ∉ s) : reSub m s = s :=
  reSub_eq_of_none_drop m s
    (fun _ => hm _ (fun hmem => hs (List.mem_of_mem_drop hmem)))

theorem stage1Loop_id (s : Str) (hs : '\n' ∉ s) :
    ∀ n, stage1Loop n s = s := by
  intro n
  cases n with
  | zero => rfl
  | succ k =>
    have h1 : stage1Once s = s := reSub_id_of_noNl mParen mParen_none s hs
    simp [stage1Loop, h1]

/-- On a newline- and CR-free input, every stage before 13 is the
identity, so `_fix_line_breaks` reduces to the final space-collapsing
pass. -/
theorem fixLineBreaks_eq_collapse (x : Str)
    (hn : '\n' ∉ x) (hr : '\r' ∉ x) :
    fixLineBreaks x = collapseSpaces x := by
  by_cases hx : x.isEmpty
  · have hnil : x = [] := by simpa using hx
    subst hnil
    rfl
  · unfold fixLineBreaks
    rw [if_neg hx]
    rw [replaceAll_eq_of_head_notin '\r' ['\n'] ['\n'] x hr]
    rw [replaceAll_eq_of_head_notin '\r' [] ['\n'] x hr]
    rw [reSub_id_of_noNl mNlRun mNlRun_none x hn]
    rw [stage1Loop_id x hn 10]
    rw [reSub_id_of_noNl m2 (fun t ht => seqWsNl_none _ _ _ t ht) x hn]
    rw [reSub_id_of_noNl m3 (fun t ht => seqWsNl_none _ _ _ t ht) x hn]
    rw [reSub_id_of_noNl m4 (fun t ht => seqWsNl_none _ _ _ t ht) x hn]
    rw [reSub_id_of_noNl m5 (fun t ht => seqWsNl_none _ _ _ t ht) x hn]
    rw [reSub_id_of_noNl m6a (fun t ht => seqWsNl_none _ _ _ t ht) x hn]
    rw [reSub_id_of_noNl m6b (fun t ht => seqWsNl_none _ _ _ t ht) x hn]
    rw [reSub_id_of_noNl m6c (fun t ht => seqWsNl_none _ _ _ t ht) x hn]
    rw [reSub_id_of_noNl m6d (fun t ht => seqWsNl_none _ _ _ t ht) x hn]
    rw [reSub_id_of_noNl m7 (fun t ht => seqWsNl_none _ _ _ t ht) x hn]
    rw [reSub_id_of_noNl m8a (fun t ht => seqWsNl_none _ _ _ t ht) x hn]
    rw [reSub_id_of_noNl m8b (fun t ht => seqWsNl_none _ _ _ t ht) x hn]
    rw [reSub_id_of_noNl m8c (fun t ht => seqWsNl_none _ _ _ t ht) x hn]
    rw [reSub_id_of_noNl m9a (fun t ht => seqWsNl_none _ _ _ t ht) x hn]
    rw [reSub_id_of_noNl m9b (fun t ht => seqWsNl_none _ _ _ t ht) x hn]
    rw [reSub_id_of_noNl m10 (fun t ht => seqWsNl_none _ _ _ t ht) x hn]
    rw [reSub_id_of_noNl m11a (fun t ht => seqWsNl_none _ _ _ t ht) x hn]
    rw [reSub_id_of_noNl m11b (fun t ht => seqWsNl_none _ _ _ t ht) x hn]
    rw [reSub_id_of_noNl m12 m12_none x hn]

theorem mem_subFuel_m13 :
    ∀ (fuel : Nat) (s : Str) (a : Char),
      a ∈ subFuel m13 fuel s → a ∈ s ∨ a = ' ' := by
  intro fuel
  induction fuel with
  | zero => intro s a ha; exact Or.inl ha
  | succ k ih =>
    intro s a ha
    cases s with
    | nil => simp [subFuel] at ha
    | cons c cs =>
      cases hm : m13 (c :: cs) with
      | none =>
        simp only [subFuel, hm] at ha
        rcases List.mem_cons.mp ha with hac | ha2
        · exact Or.inl (hac ▸ List.mem_cons_self c cs)
        · rcases ih cs a ha2 with h | h
          · exact Or.inl (List.mem_cons.mpr (Or.inr h))
          · exact Or.inr h
      | some pr =>
        have hm' := hm
        unfold m13 at hm'
        by_cases h2 : 2 ≤ ((c :: cs).takeWhile (fun x => x == ' ')).length
        · rw [if_pos h2] at hm'
          have hpr : pr = ([' '],
              (c :: cs).drop ((c :: cs).takeWhile (fun x => x == ' ')).length) :=
            (Option.some_injective _ hm').symm
          have hrl : ((c :: cs).drop
              ((c :: cs).takeWhile (fun x => x == ' ')).length).length
                < cs.length + 1 := by
            rw [List.length_drop]
            have := h2
            simp only [List.length_cons] at *
            omega
          subst hpr
          simp only [subFuel, hm, if_pos hrl] at ha
          rcases List.mem_append.mp ha with h | h
          · simp at h
            exact Or.inr h
          · rcases ih _ a h with h | h
            · exact Or.inl (List.mem_of_mem_drop h)
            · exact Or.inr h
        · rw [if_neg h2] at hm'
          exact absurd hm' (by simp)

theorem mem_collapseSpaces (s : Str) (a : Char)
    (ha : a ∈ collapseSpaces s) : a ∈ s ∨ a = ' ' :=
  mem_subFuel_m13 s.length s a ha

theorem takeWhile_drop_eq_dropWhile (p : Char → Bool) :
    ∀ s : Str, s.drop (s.takeWhile p).length = s.dropWhile p := by
  intro s
  induction s with
  | nil => rfl
  | cons c cs ih =>
    rw [List.takeWhile_cons, List.dropWhile_cons]
    by_cases h : p c = true
    · rw [if_pos h, if_pos h]
      simpa using ih
    · rw [if_neg h, if_neg h]
      rfl

theorem head_dropWhile_false (p : Char → Bool) :
    ∀ (s : Str) (c : Char) (t : Str), s.dropWhile p = c :: t → p c = false := by
  intro s
  induction s with
  | nil => intro c t h; simp at h
  | cons a as ih =>
    intro c t h
    rw [List.dropWhile_cons] at h
    by_cases hp : p a = true
    · rw [if_pos hp] at h
      exact ih c t h
    · rw [if_neg hp] at h
      have : a = c := (List.cons.injEq _ _ _ _ ▸ h).1
      rw [← this]
      exact Bool.eq_false_iff.mpr hp

/-- `subFuel m13` keeps the head character. -/
theorem subFuel_m13_head (fuel : Nat) (c : Char) (cs : Str) :
    ∃ t, subFuel m13 fuel (c :: cs) = c :: t := by
  cases fuel with
  | zero => exact ⟨cs, rfl⟩
  | succ k =>
    cases hm : m13 (c :: cs) with
    | none => exact ⟨subFuel m13 k cs, by simp [subFuel, hm]⟩
    | some pr =>
      have hm' := hm
      unfold m13 at hm'
      by_cases h2 : 2 ≤ ((c :: cs).takeWhile (fun x => x == ' ')).length
      · rw [if_pos h2] at hm'
        have hc : c = ' ' := by
          by_contra hne
          have : ((c :: cs).takeWhile (fun x => x == ' ')) = [] := by
            rw [List.takeWhile_cons, if_neg (by simpa using hne)]
          rw [this] at h2
          simp at h2
        have hpr : pr = ([' '],
            (c :: cs).drop ((c :: cs).takeWhile (fun x => x == ' ')).length) :=
          (Option.some_injective _ hm').symm
        have hrl : ((c :: cs).drop
            ((c :: cs).takeWhile (fun x => x == ' ')).length).length
              < cs.length + 1 := by
          rw [List.length_drop]
          simp only [List.length_cons] at *
          omega
        subst hpr
        refine ⟨subFuel m13 k
          ((c :: cs).drop ((c :: cs).takeWhile (fun x => x == ' ')).length), ?_⟩
        simp only [subFuel, hm, if_pos hrl]
        rw [hc]
        rfl
      · rw [if_neg h2] at hm'
        exact absurd hm' (by simp)

theorem NDS_nil : NDS [] := by
  intro n
  simp [startsWithL]

theorem NDS_cons (c : Char) (cs : Str)
    (h0 : startsWithL [' ', ' '] (c :: cs) = false) (hc : NDS cs) :
    NDS (c :: cs) := by
  intro n
  cases n with
  | zero => exact h0
  | succ m => exact hc m

theorem startsWith_two_spaces_false (c : Char) (cs : Str)
    (h : c = ' ' → cs.head? ≠ some ' ') :
    startsWithL [' ', ' '] (c :: cs) = false := by
  by_cases hc : c = ' '
  · subst hc
    cases cs with
    | nil => simp [startsWithL]
    | cons d ds =>
      have hd : d ≠ ' ' := fun hds => h rfl (by simp [hds])
      have hsd : ' ' ≠ d := Ne.symm hd
      simp [startsWithL, hsd]
  · have hsc : ' ' ≠ c := Ne.symm hc
    simp [startsWithL, hsc]

theorem takeWhile_short_of_none (c : Char) (cs : Str)
    (h2 : ¬ 2 ≤ ((c :: cs).takeWhile (fun x => x == ' ')).length)
    (hc : c = ' ') : cs.head? ≠ some ' ' := by
  intro hh
  cases cs with
  | nil => simp at hh
  | cons d ds =>
    have hd : d = ' ' := by simpa using hh
    rw [List.takeWhile_cons, if_pos (by simp [hc]), List.takeWhile_cons,
      if_pos (by simp [hd])] at h2
    simp at h2

/-- The output of the space-collapsing pass never has two adjacent
spaces. -/
theorem NDS_subFuel_m13 :
    ∀ (fuel : Nat) (s : Str), s.length ≤ fuel → NDS (subFuel m13 fuel s) := by
  intro fuel
  induction fuel with
  | zero =>
    intro s hs
    have : s = [] := List.eq_nil_of_length_eq_zero (Nat.le_zero.mp hs)
    subst this
    exact NDS_nil
  | succ k ih =>
    intro s hs
    cases s with
    | nil => exact NDS_nil
    | cons c cs =>
      have hcs : cs.length ≤ k := Nat.lt_succ_iff.mp hs
      cases hm : m13 (c :: cs) with
      | none =>
        have hres : subFuel m13 (k + 1) (c :: cs) = c :: subFuel m13 k cs := by
          simp [subFuel, hm]
        rw [hres]
        refine NDS_cons c _ ?_ (ih cs hcs)
        refine startsWith_two_spaces_false c _ ?_
        intro hc hh
        have hm' := hm
        unfold m13 at hm'
        by_cases h2 : 2 ≤ ((c :: cs).takeWhile (fun x => x == ' ')).length
        · rw [if_pos h2] at hm'
          exact absurd hm' (by simp)
        · have hhead : cs.head? ≠ some ' ' := takeWhile_short_of_none c cs h2 hc
          cases cs with
          | nil =>
            rw [subFuel_nil] at hh
            simp at hh
          | cons d ds =>
            obtain ⟨t, ht⟩ := subFuel_m13_head k d ds
            rw [ht] at hh
            simp at hh
            exact hhead (by simp [hh])
      | some pr =>
        have hm' := hm
        unfold m13 at hm'
        by_cases h2 : 2 ≤ ((c :: cs).takeWhile (fun x => x == ' ')).length
        · rw [if_pos h2] at hm'
          have hpr : pr = ([' '],
              (c :: cs).drop ((c :: cs).takeWhile (fun x => x == ' ')).length) :=
            (Option.some_injective _ hm').symm
          have hrl : ((c :: cs).drop
              ((c :: cs).takeWhile (fun x => x == ' ')).length).length
                < cs.length + 1 := by
            rw [List.length_drop]
            simp only [List.length_cons] at *
            omega
          have hrlen : ((c :: cs).drop
              ((c :: cs).takeWhile (fun x => x == ' ')).length).length ≤ k := by
            simp only [List.length_cons] at hs
            omega
          subst hpr
          have hres : subFuel m13 (k + 1) (c :: cs)
              = ' ' :: subFuel m13 k
                  ((c :: cs).drop ((c :: cs).takeWhile (fun x => x == ' ')).length) := by
            simp only [subFuel, hm, if_pos hrl]
            rfl
          rw [hres]
          refine NDS_cons ' ' _ ?_ (ih _ hrlen)
          refine startsWith_two_spaces_false ' ' _ ?_
          intro _ hh
          rw [takeWhile_drop_eq_dropWhile] at hh
          cases hdw : (c :: cs).dropWhile (fun x => x == ' ') with
          | nil =>
            rw [hdw, subFuel_nil] at hh
            simp at hh
          | cons d ds =>
            have hd : d ≠ ' ' := by
              have := head_dropWhile_false (fun x => x == ' ') (c :: cs) d ds hdw
              simpa using this
            rw [hdw] at hh
            obtain ⟨t, ht⟩ := subFuel_m13_head k d ds
            rw [ht] at hh
            simp at hh
            exact hd hh
        · rw [if_neg h2] at hm'
          exact absurd hm' (by simp)

theorem m13_none_of_no_two_spaces (t : Str)
    (h : startsWithL [' ', ' '] t = false) : m13 t = none := by
  unfold m13
  rw [if_neg]
  intro h2
  cases t with
  | nil => simp at h2
  | cons c cs =>
    rw [List.takeWhile_cons] at h2
    by_cases hc : (c == ' ') = true
    · rw [if_pos hc] at h2
      simp only [List.length_cons] at h2
      cases cs with
      | nil => simp at h2
      | cons d ds =>
        rw [List.takeWhile_cons] at h2
        by_cases hd : (d == ' ') = true
        · have hceq : c = ' ' := by simpa using hc
          have hdeq : d = ' ' := by simpa using hd
          rw [hceq, hdeq] at h
          simp [startsWithL] at h
        · rw [if_neg hd] at h2
          simp at h2
    · rw [if_neg hc] at h2
      simp at h2

theorem NDS_collapseSpaces (x : Str) : NDS (collapseSpaces x) :=
  NDS_subFuel_m13 x.length x (le_refl _)

theorem collapseSpaces_idem (x : Str) :
    collapseSpaces (collapseSpaces x) = collapseSpaces x :=
  RD.reSub_eq_of_none_drop m13 (collapseSpaces x)
    (fun n => m13_none_of_no_two_spaces _ (NDS_collapseSpaces x n))

end PDF

/-- **C1 counterexample** `_fix_line_breaks` is not idempotent: on
`"1.\n2.\n3. a"` the first application joins `1.\n2` into `1.2` and the
stage-12 pass keeps the newline standing before the list marker `3. `;
the second application then finds the fresh `2.\n3` decimal-split
pattern and joins it too, so `f(f(x)) ≠ f(x)`. -/
theorem c1_counterexample :
    PDF.fixLineBreaks c1Src = "1.2.\n3. a".toList
    ∧ PDF.fixLineBreaks (PDF.fixLineBreaks c1Src) = "1.2.3. a".toList
    ∧ PDF.fixLineBreaks (PDF.fixLineBreaks c1Src) ≠ PDF.fixLineBreaks c1Src := by
  refine ⟨by decide, by decide, by decide⟩

/-- **C1 (amended)** `_fix_line_breaks` is idempotent on inputs that
contain no line-break characters (`'\n'`, `'\r'`): on such inputs every
stage except the final space-collapsing pass is the identity, and that
pass is idempotent.  On general inputs a second application need not be
a no-op (see the counterexample): a rewrite can leave a fresh occurrence
of an earlier stage's pattern adjacent to a newline that stage 12
retains. -/
theorem c1_repair_idempotent_on_break_free (x : Str)
    (hn : '\n' ∉ x) (hr : '\r' ∉ x) :
    PDF.fixLineBreaks (PDF.fixLineBreaks x) = PDF.fixLineBreaks x := by
  have h1 := PDF.fixLineBreaks_eq_collapse x hn hr
  have hn2 : '\n' ∉ PDF.collapseSpaces x := by
    intro hm
    rcases PDF.mem_collapseSpaces x '\n' hm with h | h
    · exact hn h
    · simp at h
  have hr2 : '\r' ∉ PDF.collapseSpaces x := by
    intro hm
    rcases PDF.mem_collapseSpaces x '\r' hm with h | h
    · exact hr h
    · simp at h
  have h2 := PDF.fixLineBreaks_eq_collapse (PDF.collapseSpaces x) hn2 hr2
  rw [h1, h2, PDF.collapseSpaces_idem]

/-- Witness for C1 (amended): a break-free input with doubled spaces. -/
theorem c1_repair_idempotent_on_break_free_witness :
    PDF.fixLineBreaks (PDF.fixLineBreaks ("a  b   c".toList))
      = PDF.fixLineBreaks ("a  b   c".toList) :=
  c1_repair_idempotent_on_break_free ("a  b   c".toList) (by decide) (by decide)

/-- **C8** The risk-grade field resolves via the explicit `위험도 등급:`
sub-label whenever that search succeeds; otherwise it falls back to
matching one of the closed five-code set `{E, O, X1, X2, S}` (in that
alternation order, requiring a following whitespace or end) at the start
of the section's first line — and any code produced by the fallback is
one of the five codes standing at the line start; the section body
consisting of the bare line `X2` resolves to `X2` via this fallback. -/
theorem c8_risk_grade_resolution :
    (∀ (info v : Str), PDF.containsSub PDF.gradeLabelLit info = true →
        PDF.searchGrade info = some v → PDF.riskGrade info = some v)
    ∧ (∀ (info g : Str), PDF.containsSub PDF.gradeLabelLit info = false →
        (RD.strip info).isEmpty = false →
        PDF.gradeMatch (PDF.firstLineOf info) = some g →
        PDF.riskGrade info = some g)
    ∧ (∀ (line g : Str), PDF.gradeMatch line = some g →
        g ∈ PDF.gradeCodes ∧ RD.startsWithL g line = true)
    ∧ PDF.riskGrade ("X2".toList) = some ("X2".toList) := by
  refine ⟨?_, ?_, ?_, by decide⟩
  · intro info v h1 h2
    simp [PDF.riskGrade, h1, h2]
  · intro info g h1 h2 h3
    simp [PDF.riskGrade, h1, h2, h3]
  · intro line g h
    exact PDF.gradeTry_mem PDF.gradeCodes line g h

/-- Witness for C8: the labelled form `위험도 등급: X1` resolves to `X1`
via the sub-label, and the fallback facts hold on the bare-line body. -/
theorem c8_risk_grade_resolution_witness :
    PDF.riskGrade ("위험도 등급: X1\n근거".toList) = some ("X1".toList)
    ∧ PDF.riskGrade ("E 파손 없음".toList) = some ("E".toList) :=
  ⟨c8_risk_grade_resolution.1 ("위험도 등급: X1\n근거".toList) ("X1".toList)
      (by decide) (by decide),
   c8_risk_grade_resolution.2.1 ("E 파손 없음".toList) ("E".toList)
      (by decide) (by decide) (by decide)⟩

/-- **C10** `_wrap_text` first repairs line breaks and then slices: the
returned string is the newline-join of the slice list; concatenating
the slices restores the repaired text exactly; every slice has length at
most `max_length`; and every slice except possibly the last has length
exactly `max_length`. -/
theorem c10_wrap_text_slices (text : Str) (maxLen : Nat) (h : 0 < maxLen) :
    PDF.wrapText maxLen text
      = Pipe.joinNl (PDF.wrapChunks maxLen (PDF.fixLineBreaks text))
    ∧ (PDF.wrapChunks maxLen (PDF.fixLineBreaks text)).flatten
        = PDF.fixLineBreaks text
    ∧ (∀ c ∈ PDF.wrapChunks maxLen (PDF.fixLineBreaks text), c.length ≤ maxLen)
    ∧ (∀ c ∈ (PDF.wrapChunks maxLen (PDF.fixLineBreaks text)).dropLast,
        c.length = maxLen) := by
  have hs := PDF.wrapChunksGo_spec maxLen h (PDF.fixLineBreaks text).length
    (PDF.fixLineBreaks text) (le_refl _)
  exact ⟨rfl, hs.1, hs.2.1, hs.2.2⟩

/-- Witness for C10 at `max_length = 3` on an 8-character input. -/
theorem c10_wrap_text_slices_witness :
    (PDF.wrapChunks 3 (PDF.fixLineBreaks ("abcdefgh".toList))).flatten
      = PDF.fixLineBreaks ("abcdefgh".toList)
    ∧ (∀ c ∈ PDF.wrapChunks 3 (PDF.fixLineBreaks ("abcdefgh".toList)),
        c.length ≤ 3) :=
  ⟨(c10_wrap_text_slices ("abcdefgh".toList) 3 (by decide)).2.1,
   (c10_wrap_text_slices ("abcdefgh".toList) 3 (by decide)).2.2.1⟩

namespace Gen

open RD

theorem detStep_eq (acc : List Str) (d : Det) :
    detStep acc d = acc ++ detParts d := by
  unfold detStep detParts
  by_cases h1 : d.cls_name ≠ [] ∧ d.detail ≠ []
  · by_cases h2 : d.rail_type ≠ [] <;> simp [h1, h2]
  · by_cases h2 : d.rail_type ≠ [] <;> simp [h1, h2]

theorem foldl_detStep_append :
    ∀ (dets : List Det) (acc : List Str),
      dets.foldl detStep acc = acc ++ detPartsAll dets := by
  intro dets
  induction dets with
  | nil => intro acc; simp [detPartsAll]
  | cons d ds ih =>
    intro acc
    rw [List.foldl_cons, ih, detStep_eq, List.append_assoc]
    rfl

theorem formatRagContext_ne_nil (c : RChunk) (cs : List RChunk) :
    formatRagContext (c :: cs) ≠ [] := by
  cases cs with
  | nil => simp [formatRagContext, joinNl2, ragCtxPart]
  | cons c2 cs2 => simp [formatRagContext, joinNl2, ragCtxPart]

end Gen

/-- **C4** Given RAG was requested and detections exist, the returned
"RAG used" flag is true iff the vector-store search returned a non-empty
chunk list; the configured similarity threshold is never applied — the
output is identical for any two threshold values, and the context is the
formatting of the full, unfiltered result list. -/
theorem c4_rag_used_iff_nonempty (th : ℚ) (dets : List Gen.Det)
    (searchResult : List Gen.RChunk) (hd : dets ≠ []) :
    ((Gen.generateRag th true dets searchResult).rag_used = true ↔ searchResult ≠ [])
    ∧ (∀ th' : ℚ, ∀ (u : Bool) (ds : List Gen.Det) (sr : List Gen.RChunk),
        Gen.generateRag th u ds sr = Gen.generateRag th' u ds sr)
    ∧ (searchResult ≠ [] →
        (Gen.generateRag th true dets searchResult).rag_context
          = Gen.formatRagContext searchResult) := by
  refine ⟨?_, fun th' u ds sr => rfl, ?_⟩
  · cases searchResult with
    | nil => simp [Gen.generateRag, hd]
    | cons c cs =>
      have hne := Gen.formatRagContext_ne_nil c cs
      simp [Gen.generateRag, hd, List.isEmpty_iff, hne]
  · intro hs
    simp [Gen.generateRag, hd, hs]

/-- Witness for C4 at a one-detection, one-chunk instance. -/
theorem c4_rag_used_iff_nonempty_witness :
    ((Gen.generateRag 0 true [⟨[], [], []⟩] [⟨[], []⟩]).rag_used = true
      ↔ ([⟨[], []⟩] : List Gen.RChunk) ≠ []) :=
  (c4_rag_used_iff_nonempty 0 [⟨[], [], []⟩] [⟨[], []⟩] (by decide)).1

/-- **C5 counterexample** Two detections sharing the rail category
`고속철도` (and lacking component/detail) yield the query
`"고속철도 고속철도"`: the category is appended once per detection, not
deduplicated, contradicting "each distinct non-empty rail-category value
exactly once" (the claim's rule would give `"고속철도"`). -/
theorem c5_counterexample :
    Gen.buildRagQuery [c5Det, c5Det] = "고속철도 고속철도".toList
    ∧ Gen.buildRagQuerySpec [c5Det, c5Det] = "고속철도".toList
    ∧ Gen.buildRagQuery [c5Det, c5Det] ≠ Gen.buildRagQuerySpec [c5Det, c5Det] := by
  refine ⟨by decide, by decide, by decide⟩

/-- **C5 (amended)** `_build_rag_query` walks the detections in order;
each detection contributes `"component detail"` when both are non-empty
and then its rail-category when non-empty (duplicates retained,
interleaved per detection); the parts are joined with single spaces, and
the fixed fallback query is returned when no part was emitted. -/
theorem c5_query_construction (dets : List Gen.Det) :
    Gen.buildRagQuery dets
      = (if Gen.detPartsAll dets = [] then Gen.fallbackQuery
         else Gen.joinSpace (Gen.detPartsAll dets)) := by
  unfold Gen.buildRagQuery Gen.buildQueryParts
  rw [Gen.foldl_detStep_append, List.nil_append]

/-- Witness for C7 (amended): instantiates the padding facts at overlap 3
on the scenario's units. -/
theorem c7_overlap_padding_witness :
    (Chunker.pyTakeLast 3 ("ab".toList)).length = min 3 2
    ∧ ((Chunker.applyOverlap 3 [Chunker.dReg, Chunker.dReg]).getD 1
          Chunker.dChunk).content
        = Chunker.ell ++ Chunker.pyTakeLast 3 ([] : Str) ++ Chunker.nl2 ++ [] ++ [] :=
  ⟨by
    have h := (c7_overlap_padding.2.1 3 ("ab".toList) (by decide)).1
    simpa using h,
   by
    have h := c7_overlap_padding.2.2.2 3 [Chunker.dReg, Chunker.dReg] 1 (by decide)
    simpa [Chunker.dReg] using h⟩
